import Mathlib

/-!
Verification of the gosplit chunk extractor and budget splitter (`main.go`).

Go strings are modelled as `List Char` (`Str`).  The external token counter
`countTokens` is modelled as an abstract fallible function `tc : Str → Option Nat`
(`none` models a returned error, as in the Go signature `(int, error)`).

Pointer semantics of `splitChunk`: in the Go source the parameter is
`chunk *Chunk`; the statement `newChunk := chunk` copies the *pointer*, so each
flush (`newChunk.Content = …; newChunk.Size = …; chunks = append(chunks, newChunk)`)
writes through the shared pointer and appends that same pointer.  A call is
therefore modelled as returning both the history of values written at each
append (the flush snapshots, first component) and the final value of the single
shared record (second component).  What a Go caller observes in the returned
slice after the call — every element dereferences the one shared pointer — is
recovered by `observedChunks`.
-/

namespace GoSplit

/-- Go strings, modelled as lists of characters. -/
abbrev Str := List Char

/-- Model of Go `unicode.IsSpace` (the White_Space property), used by
`strings.Fields`. -/
def goIsSpace (c : Char) : Bool :=
  (9 ≤ c.toNat && c.toNat ≤ 13) || c.toNat = 32 || c.toNat = 0x85 || c.toNat = 0xA0 ||
  c.toNat = 0x1680 || (0x2000 ≤ c.toNat && c.toNat ≤ 0x200A) || c.toNat = 0x2028 ||
  c.toNat = 0x2029 || c.toNat = 0x202F || c.toNat = 0x205F || c.toNat = 0x3000

/-- The non-whitespace characters of a string, in order.  Used to state
"splitting reproduces all non-whitespace content". -/
def nonWs (s : Str) : Str := s.filter (fun c => !goIsSpace c)

/-- Model of Go `strings.Split(s, "\n")` (`main.go:232`): the substrings of `s`
between consecutive newline separators; `""` yields `[""]`. -/
def splitLinesGo : Str → List Str
  | [] => [[]]
  | c :: rest =>
    let r := splitLinesGo rest
    if c = '\n' then [] :: r else (c :: r.headD []) :: r.tail

/-- Accumulator-passing core of `fieldsGo`; `acc` holds the reversed current
word. -/
def fieldsAux : Str → Str → List Str
  | [], acc => if acc = [] then [] else [acc.reverse]
  | c :: rest, acc =>
    if goIsSpace c then
      if acc = [] then fieldsAux rest [] else acc.reverse :: fieldsAux rest []
    else fieldsAux rest (c :: acc)

/-- Model of Go `strings.Fields` (`main.go:256`): the maximal runs of
non-whitespace characters of `s`, in order. -/
def fieldsGo (s : Str) : List Str := fieldsAux s []

/-- Model of the Go `ChunkType` string enumeration (`main.go:20-37`). -/
inductive ChunkType
  | function
  | struct
  | method
  | var
  | const
  deriving DecidableEq

/-- Model of the Go `LangGo` constant `"go"`. -/
def LangGo : Str := ['g', 'o']

/-- Model of the Go `Chunk` struct (`main.go:41-51`).  The Go field `Type` is
called `typ` here because `Type` is reserved in Lean. -/
structure Chunk where
  Content : Str
  typ : ChunkType
  Name : Str
  Path : Str
  Receiver : Str
  Size : Nat
  Lang : Str
  Start : Nat
  End : Nat
  deriving DecidableEq

/-- The value written through the shared pointer at a flush
(`newChunk.Content = …; newChunk.Size = …`): the input record with `Content`
and `Size` replaced, all other fields untouched. -/
def flushChunk (chunk : Chunk) (content : Str) (size : Nat) : Chunk :=
  { chunk with Content := content, Size := size }

/-- The inner word loop of `splitChunk` (`main.go:260-282`).  Arguments mirror
the Go locals `lineChunk` (the word buffer), `lineTokenCount`, and the chunk
slice built so far; `log` accumulates every string passed to the token counter
(each Go `countTokens` call appends its argument).  Returns the final log
together with `none` on a counter failure, or the final buffer, its running
count, and the extended flush list. -/
def splitWordsLoop (tc : Str → Option Nat) (chunk : Chunk) (maxTokens : Int) :
    List Str → Str → Nat → List Chunk → List Str →
    List Str × Option (Str × Nat × List Chunk)
  | [], lineChunk, lineTokenCount, chunks, log => (log, some (lineChunk, lineTokenCount, chunks))
  | word :: rest, lineChunk, lineTokenCount, chunks, log =>
    match tc word with
    | none => (log ++ [word], none)
    | some wordTokenCount =>
      if (lineTokenCount + wordTokenCount : Int) > maxTokens then
        if lineChunk.length > 0 then
          -- flush the buffer, then append the word to the now-empty buffer
          -- (no space separator, count restarts at the word's count)
          splitWordsLoop tc chunk maxTokens rest word wordTokenCount
            (chunks ++ [flushChunk chunk lineChunk lineTokenCount]) (log ++ [word])
        else
          -- Go only flushes a non-empty buffer; the word is still appended
          splitWordsLoop tc chunk maxTokens rest (lineChunk ++ word)
            (lineTokenCount + wordTokenCount) chunks (log ++ [word])
      else
        splitWordsLoop tc chunk maxTokens rest
          ((if lineChunk.length > 0 then lineChunk ++ [' '] else lineChunk) ++ word)
          (lineTokenCount + wordTokenCount) chunks (log ++ [word])

/-- The line loop of `splitChunk` (`main.go:237-309`).  Arguments mirror the Go
locals `currentChunk` (the accumulator), `currentTokenCount`, and the chunk
slice built so far. -/
def splitLinesLoop (tc : Str → Option Nat) (chunk : Chunk) (maxTokens : Int) :
    List Str → Str → Nat → List Chunk → List Str →
    List Str × Option (Str × Nat × List Chunk)
  | [], currentChunk, currentTokenCount, chunks, log =>
    (log, some (currentChunk, currentTokenCount, chunks))
  | line :: rest, currentChunk, currentTokenCount, chunks, log =>
    match tc line with
    | none => (log ++ [line], none)
    | some lineTokenCount =>
      if (lineTokenCount : Int) > maxTokens then
        -- main.go:244-290: flush the accumulator if non-empty, then split the
        -- oversized line into words; the accumulator (and its count) survive
        -- unchanged when it was empty
        match splitWordsLoop tc chunk maxTokens (fieldsGo line) [] 0
            (if currentChunk.length > 0 then
              chunks ++ [flushChunk chunk currentChunk currentTokenCount]
            else chunks) (log ++ [line]) with
        | (log2, none) => (log2, none)
        | (log2, some (lineChunk, wordCount, chunks2)) =>
          splitLinesLoop tc chunk maxTokens rest
            (if currentChunk.length > 0 then [] else currentChunk)
            (if currentChunk.length > 0 then 0 else currentTokenCount)
            (if lineChunk.length > 0 then chunks2 ++ [flushChunk chunk lineChunk wordCount]
              else chunks2)
            log2
      else
        if (currentTokenCount + lineTokenCount : Int) > maxTokens then
          -- main.go:294-301: flush (regardless of emptiness), reset, then add
          -- the line to the now-empty accumulator
          splitLinesLoop tc chunk maxTokens rest line lineTokenCount
            (chunks ++ [flushChunk chunk currentChunk currentTokenCount]) (log ++ [line])
        else
          -- main.go:304-308: newline-join the line onto the accumulator
          splitLinesLoop tc chunk maxTokens rest
            ((if currentChunk.length > 0 then currentChunk ++ ['\n'] else currentChunk) ++ line)
            (currentTokenCount + lineTokenCount) chunks (log ++ [line])

/-- Model of `splitChunk` (`main.go:214-320`), instrumented with the list of
strings passed to the token counter (first component).  The second component is
`none` on a counter failure; otherwise it carries the flush snapshots in append
order and the final value of the shared record (the input record unchanged when
nothing was flushed, else the last snapshot — each flush overwrote it). -/
def splitChunkR (tc : Str → Option Nat) (chunk : Chunk) (maxTokens : Int) :
    List Str × Option (List Chunk × Chunk) :=
  if maxTokens ≤ 0 then ([], some ([chunk], chunk))
  else
    match tc chunk.Content with
    | none => ([chunk.Content], none)
    | some tokenCount =>
      if (tokenCount : Int) ≤ maxTokens then ([chunk.Content], some ([chunk], chunk))
      else
        match splitLinesLoop tc chunk maxTokens (splitLinesGo chunk.Content) [] 0 []
            [chunk.Content] with
        | (log, none) => (log, none)
        | (log, some (currentChunk, currentTokenCount, chunks)) =>
          let chunks :=
            if currentChunk.length > 0 then
              chunks ++ [flushChunk chunk currentChunk currentTokenCount]
            else chunks
          (log, some (chunks, chunks.getLastD chunk))

/-- The result of `splitChunk`: flush snapshots and final shared-record value
(see `splitChunkR`). -/
def splitChunk (tc : Str → Option Nat) (chunk : Chunk) (maxTokens : Int) :
    Option (List Chunk × Chunk) :=
  (splitChunkR tc chunk maxTokens).2

/-- The arguments of every `countTokens` call performed during `splitChunk`, in
call order. -/
def splitChunkQueries (tc : Str → Option Nat) (chunk : Chunk) (maxTokens : Int) : List Str :=
  (splitChunkR tc chunk maxTokens).1

/-- The chunk list a Go caller observes after `splitChunk` returns: every
element of the returned `[]*Chunk` is the one shared pointer, so each
dereferences to the final record value. -/
def observedChunks (r : List Chunk × Chunk) : List Chunk :=
  List.replicate r.1.length r.2

/-- Concatenation of the contents of a chunk list, in order. -/
def contentCat (cs : List Chunk) : Str := (cs.map Chunk.Content).flatten

/-- Two chunks agree on every field except `Content` and `Size`. -/
def staticEq (a b : Chunk) : Prop :=
  a.typ = b.typ ∧ a.Name = b.Name ∧ a.Receiver = b.Receiver ∧ a.Lang = b.Lang ∧
  a.Path = b.Path ∧ a.Start = b.Start ∧ a.End = b.End

instance : DecidablePred (fun p : Chunk × Chunk => staticEq p.1 p.2) := by
  intro p
  unfold staticEq
  infer_instance

/-- A sub-chunk respects the budget, or is a single whitespace-delimited word
whose own token count is its recorded size (the irreducible case). -/
def withinBudget (tc : Str → Option Nat) (maxTokens : Int) (c : Chunk) : Prop :=
  (c.Size : Int) ≤ maxTokens ∨ (fieldsGo c.Content = [c.Content] ∧ tc c.Content = some c.Size)

/-- Invariant of the word buffer in `splitWordsLoop`: it is empty with count 0,
or non-empty and either a single whitespace-free word whose exact token count
is the running count, or within budget. -/
def bufInvariant (tc : Str → Option Nat) (maxTokens : Int) (buf : Str) (cnt : Nat) : Prop :=
  (buf = [] ∧ cnt = 0) ∨
  (buf ≠ [] ∧
    (((∀ ch ∈ buf, goIsSpace ch = false) ∧ tc buf = some cnt) ∨ (cnt : Int) ≤ maxTokens))

/-! ### The span resolver (`extractChunks`, `main.go:64-197`)

The Go AST and position data are modelled by the fields `extractChunks`
actually reads: every node carries the byte positions (`token.Pos`, a `Nat`)
returned by its `Pos()`/`End()` methods, and `fset.Position` is an abstract
map from positions to (line, byte offset) pairs. -/

/-- One `ast.Comment`: its `Slash` position and its `End()`. -/
structure Comment where
  slash : Nat
  endP : Nat
  deriving DecidableEq

/-- One `ast.CommentGroup`: the comment list. -/
structure CommentGroup where
  list : List Comment
  deriving DecidableEq

/-- `CommentGroup.Pos()`: the position of the first comment. -/
def CommentGroup.pos (g : CommentGroup) : Nat := (g.list.headD ⟨0, 0⟩).slash

/-- `CommentGroup.End()`: the end of the last comment. -/
def CommentGroup.endP (g : CommentGroup) : Nat := (g.list.getLastD ⟨0, 0⟩).endP

/-- The shape of a receiver's type expression, as far as the `switch` at
`main.go:92-99` inspects it: an `*ast.Ident`, an `*ast.StarExpr` (whose operand
is inspected one level), or anything else. -/
inductive RecvExpr
  | ident (name : Str)
  | star (x : RecvExpr)
  | other
  deriving DecidableEq

/-- Model of an `ast.FuncDecl`: name, optional doc comment group, optional
receiver field list (the type expression of each field), and the `Pos()`/`End()`
of the declaration node itself. -/
structure FuncDecl where
  name : Str
  doc : Option CommentGroup
  recv : Option (List RecvExpr)
  pos : Nat
  endP : Nat
  deriving DecidableEq

/-- Whether a `TypeSpec`'s type expression is an `*ast.StructType`
(`main.go:130`). -/
inductive TypeExpr
  | structType
  | otherType
  deriving DecidableEq

/-- One `ast.Spec` of a `GenDecl`: a type spec (name, optional doc group, type
shape), a value spec (declared names — unused by the code — and optional
trailing comment group), or an import spec. -/
inductive Spec
  | typeSpec (name : Str) (doc : Option CommentGroup) (typ : TypeExpr)
  | valueSpec (names : List Str) (comment : Option CommentGroup)
  | importSpec
  deriving DecidableEq

/-- The `GenDecl` token (`d.Tok`). -/
inductive GenTok
  | typeTok
  | varTok
  | constTok
  | importTok
  deriving DecidableEq

/-- Model of an `ast.GenDecl`.  `rparen` is the closing-parenthesis position;
`0` models `token.NoPos` (so `rparen ≠ 0` is `d.Rparen.IsValid()`). -/
structure GenDecl where
  tok : GenTok
  doc : Option CommentGroup
  specs : List Spec
  pos : Nat
  endP : Nat
  rparen : Nat
  deriving DecidableEq

/-- A top-level declaration (`ast.Decl`): a function declaration, a general
declaration, or any other form (e.g. `ast.BadDecl`), which the `switch` at
`main.go:69` ignores. -/
inductive Decl
  | funcD (d : FuncDecl)
  | genD (d : GenDecl)
  | otherD
  deriving DecidableEq

/-- Model of an `ast.File`: its top-level declaration list. -/
structure File where
  decls : List Decl
  deriving DecidableEq

/-- A resolved `token.Position`: 1-based line and byte offset into `src`. -/
structure Position where
  line : Nat
  offset : Nat
  deriving DecidableEq

/-- Go slice `src[a:b]`. -/
def srcSlice (src : Str) (a b : Nat) : Str := (src.take b).drop a

/-- The receiver label computed by the `switch` at `main.go:91-99`: the name
for an identifier, `*` + name for a star over an identifier, and the empty
string (the Go zero value of `receiverType`) for every other shape. -/
def receiverTypeOf : RecvExpr → Str
  | .ident n => n
  | .star (.ident n) => '*' :: n
  | .star _ => []
  | .other => []

/-- Chunks produced for one `ast.FuncDecl` (`main.go:70-120`). -/
def funcDeclChunks (src : Str) (posIdx : Nat → Position) (d : FuncDecl) : List Chunk :=
  let left := d.pos
  let right := d.endP
  let left := match d.doc with | some g => min left g.pos | none => left
  let right := match d.doc with | some g => max right g.endP | none => right
  let startPos := posIdx left
  let endPos := posIdx right
  let content := srcSlice src startPos.offset endPos.offset
  match d.recv with
  | some l =>
    if l.length > 0 then
      [{ Content := content, typ := .method, Name := d.name, Path := [],
         Receiver := receiverTypeOf (l.headD .other), Size := 0, Lang := LangGo,
         Start := startPos.line, End := endPos.line }]
    else
      [{ Content := content, typ := .function, Name := d.name, Path := [],
         Receiver := [], Size := 0, Lang := LangGo,
         Start := startPos.line, End := endPos.line }]
  | none =>
    [{ Content := content, typ := .function, Name := d.name, Path := [],
       Receiver := [], Size := 0, Lang := LangGo,
       Start := startPos.line, End := endPos.line }]

/-- Chunks produced for one `TYPE` general declaration (`main.go:123-155`): one
struct chunk per struct type spec, spanning from the selected start to the
whole declaration's end. -/
def typeDeclChunks (src : Str) (posIdx : Nat → Position) (d : GenDecl) : List Chunk :=
  d.specs.flatMap fun spec =>
    match spec with
    | .typeSpec name doc .structType =>
      let startPos :=
        match d.doc with
        | some g => posIdx g.pos
        | none =>
          match doc with
          | some g2 => posIdx g2.pos
          | none => posIdx d.pos
      let endPos := posIdx d.endP
      [{ Content := srcSlice src startPos.offset endPos.offset, typ := .struct,
         Name := name, Path := [], Receiver := [], Size := 0, Lang := LangGo,
         Start := startPos.line, End := endPos.line }]
    | _ => []

/-- The single chunk produced for a `VAR`/`CONST` general declaration
(`main.go:156-192`). -/
def valueDeclChunks (src : Str) (posIdx : Nat → Position) (d : GenDecl) : List Chunk :=
  let left := d.pos
  let right := d.endP
  let left := match d.doc with | some g => min left g.pos | none => left
  let right :=
    match d.specs.getLast? with
    | some (.valueSpec _ (some g)) =>
      if g.list.length > 0 then max right (g.list.getLastD ⟨0, 0⟩).endP else right
    | _ => right
  let right := if d.rparen ≠ 0 then max right d.rparen else right
  let startPos := posIdx left
  let endPos := posIdx right
  let chunkType : ChunkType := if d.tok = .constTok then .const else .var
  [{ Content := srcSlice src startPos.offset endPos.offset, typ := chunkType,
     Name := [], Path := [], Receiver := [], Size := 0, Lang := LangGo,
     Start := startPos.line, End := endPos.line }]

/-- Chunks produced for one top-level declaration (the body of the loop at
`main.go:68-195`). -/
def declChunks (src : Str) (posIdx : Nat → Position) : Decl → List Chunk
  | .funcD d => funcDeclChunks src posIdx d
  | .genD d =>
    match d.tok with
    | .typeTok => typeDeclChunks src posIdx d
    | .varTok => valueDeclChunks src posIdx d
    | .constTok => valueDeclChunks src posIdx d
    | .importTok => []
  | .otherD => []

/-- Model of `extractChunks` (`main.go:64-197`): the loop appends each
declaration's chunks in order. -/
def extractChunks (file : File) (src : Str) (posIdx : Nat → Position) : List Chunk :=
  file.decls.flatMap (declChunks src posIdx)

/-- The start position the struct-chunk code selects, stated as a selection
rule (this is the definition the amended claim C5 is compared against):
declaration doc start if present, else spec doc start if present, else the
declaration's own start. -/
def structStartSel (d : GenDecl) (specDoc : Option CommentGroup) : Nat :=
  match d.doc with
  | some g => g.pos
  | none =>
    match specDoc with
    | some g2 => g2.pos
    | none => d.pos

/-! ### Concrete instances used by counterexamples and witnesses -/

/-- A concrete token counter: the two-line string `"aa\nbb"` counts 3 tokens,
everything else 1 (consistent with a subword encoder on these inputs). -/
def tcEx : Str → Option Nat :=
  fun s => if s = ['a', 'a', '\n', 'b', 'b'] then some 3 else some 1

/-- A concrete input chunk with content `"aa\nbb"` and `Size` equal to its
token count under `tcEx`. -/
def chunkEx : Chunk :=
  { Content := ['a', 'a', '\n', 'b', 'b'], typ := .function, Name := ['f'],
    Path := ['p'], Receiver := [], Size := 3, Lang := LangGo, Start := 1, End := 2 }

/-- The first flush `splitChunk tcEx chunkEx 1` performs: content `"aa"`, size 1. -/
def chunkExA : Chunk := flushChunk chunkEx ['a', 'a'] 1

/-- The second flush `splitChunk tcEx chunkEx 1` performs: content `"bb"`, size 1. -/
def chunkExB : Chunk := flushChunk chunkEx ['b', 'b'] 1

/-- A counter that fails on `chunkEx`'s content and succeeds elsewhere. -/
def tcFail : Str → Option Nat :=
  fun s => if s = ['a', 'a', '\n', 'b', 'b'] then none else some 1

/-- The identity-like position index: position `p` is at line `p`, offset `p`. -/
def posIdxId : Nat → Position := fun p => ⟨p, p⟩

/-- A spec-level doc comment group starting at position 20. -/
def structSpecDocEx : CommentGroup := ⟨[⟨20, 24⟩]⟩

/-- A parenthesized `type` group declaration starting at position 10 whose only
struct spec carries a spec-level doc comment at position 20; the declaration
itself has no doc comment.  This is the layout `type (\n// doc\nA struct{…}\n)`
produces. -/
def typeDeclEx : GenDecl :=
  { tok := .typeTok, doc := none,
    specs := [.typeSpec ['A'] (some structSpecDocEx) .structType],
    pos := 10, endP := 50, rparen := 48 }

/-- Source text long enough to cover `typeDeclEx`'s span. -/
def srcEx : Str := List.replicate 60 'x'

/-- A file containing only `typeDeclEx`. -/
def fileEx : File := { decls := [.genD typeDeclEx] }

/-- A method declaration with receiver `*U`. -/
def methodDeclEx : FuncDecl :=
  { name := ['M'], doc := none, recv := some [.star (.ident ['U'])], pos := 5, endP := 30 }

/-- A `var` declaration with a single spec declaring exactly one identifier,
not parenthesized. -/
def varDeclEx : GenDecl :=
  { tok := .varTok, doc := none, specs := [.valueSpec [['x']] none],
    pos := 3, endP := 9, rparen := 0 }

/-- A file with the method declaration and the `var` declaration. -/
def fileC7Ex : File := { decls := [.funcD methodDeclEx, .genD varDeclEx] }

/-- A file containing only the `var` declaration. -/
def fileVarEx : File := { decls := [.genD varDeclEx] }

/-- A position index whose line component is monotone in the byte position —
true of `token.FileSet.Position`. -/
def lineMono (posIdx : Nat → Position) : Prop :=
  ∀ p q : Nat, p ≤ q → (posIdx p).line ≤ (posIdx q).line

/-- Parser guarantees about one declaration used for the `start ≤ end`
invariant: a node ends after it begins, and the doc comments attached to a
general declaration or to one of its specs lie before the declaration's end. -/
def declWF : Decl → Prop
  | .funcD d => d.pos ≤ d.endP
  | .genD d =>
    d.pos ≤ d.endP ∧ (∀ g, d.doc = some g → g.pos ≤ d.endP) ∧
    (∀ n g t, Spec.typeSpec n (some g) t ∈ d.specs → g.pos ≤ d.endP)
  | .otherD => True

/-! ### Basic lemmas -/

@[simp]
theorem goIsSpace_newline : goIsSpace '\n' = true := by decide

@[simp]
theorem goIsSpace_space : goIsSpace ' ' = true := by decide

@[simp]
theorem nonWs_nil : nonWs [] = [] := rfl

@[simp]
theorem nonWs_append (a b : Str) : nonWs (a ++ b) = nonWs a ++ nonWs b := by
  simp [nonWs]

@[simp]
theorem nonWs_newline_cons (s : Str) : nonWs ('\n' :: s) = nonWs s := by
  simp [nonWs]

@[simp]
theorem nonWs_space_cons (s : Str) : nonWs (' ' :: s) = nonWs s := by
  simp [nonWs]

@[simp]
theorem nonWs_space_single : nonWs [' '] = [] := by decide

@[simp]
theorem nonWs_newline_single : nonWs ['\n'] = [] := by decide

theorem nonWs_idem (s : Str) : nonWs (nonWs s) = nonWs s := by
  simp [nonWs, List.filter_filter]

@[simp]
theorem flushChunk_Content (c : Chunk) (b : Str) (n : Nat) :
    (flushChunk c b n).Content = b := rfl

@[simp]
theorem flushChunk_Size (c : Chunk) (b : Str) (n : Nat) :
    (flushChunk c b n).Size = n := rfl

theorem staticEq_refl (c : Chunk) : staticEq c c :=
  ⟨rfl, rfl, rfl, rfl, rfl, rfl, rfl⟩

theorem staticEq_flushChunk (c : Chunk) (b : Str) (n : Nat) :
    staticEq (flushChunk c b n) c :=
  ⟨rfl, rfl, rfl, rfl, rfl, rfl, rfl⟩

@[simp]
theorem contentCat_nil : contentCat [] = [] := rfl

@[simp]
theorem contentCat_append (a b : List Chunk) :
    contentCat (a ++ b) = contentCat a ++ contentCat b := by
  simp [contentCat]

@[simp]
theorem contentCat_singleton (c : Chunk) : contentCat [c] = c.Content := by
  simp [contentCat]

theorem mem_getLastD {α : Type} : ∀ (l : List α) (d : α), l ≠ [] → l.getLastD d ∈ l := by
  intro l
  induction l with
  | nil => intro d h; exact absurd rfl h
  | cons a t ih =>
    intro d h
    cases ht : t with
    | nil =>
      subst ht
      simp [List.getLastD_cons, List.getLastD_nil]
    | cons b t2 =>
      subst ht
      rw [List.getLastD_cons]
      exact List.mem_cons_of_mem a (ih a (by simp))

/-! ### Lemmas about `splitLinesGo` and `fieldsGo` -/

theorem splitLinesGo_ne_nil (s : Str) : splitLinesGo s ≠ [] := by
  cases s with
  | nil => simp [splitLinesGo]
  | cons c rest =>
    simp only [splitLinesGo]
    split <;> simp

theorem nonWs_flatten_splitLinesGo (s : Str) :
    nonWs (splitLinesGo s).flatten = nonWs s := by
  induction s with
  | nil => simp [splitLinesGo]
  | cons c rest ih =>
    simp only [splitLinesGo]
    by_cases hc : c = '\n'
    · subst hc
      simp only [if_pos rfl, List.flatten_cons, List.flatten_nil]
      simpa using ih
    · rw [if_neg hc]
      rcases hr : splitLinesGo rest with _ | ⟨l, ls⟩
      · exact absurd hr (splitLinesGo_ne_nil rest)
      · rw [hr] at ih
        simp only [List.headD_cons, List.tail_cons, List.flatten_cons] at ih ⊢
        simp only [nonWs, List.filter_cons] at ih ⊢
        by_cases hcs : goIsSpace c
        · simpa [hcs, List.filter_append] using ih
        · simpa [hcs, List.filter_append] using ih

theorem flatten_fieldsAux (s : Str) :
    ∀ acc : Str, (fieldsAux s acc).flatten = acc.reverse ++ nonWs s := by
  induction s with
  | nil =>
    intro acc
    cases acc <;> simp [fieldsAux]
  | cons c rest ih =>
    intro acc
    simp only [fieldsAux]
    by_cases hc : goIsSpace c
    · simp only [hc, if_true]
      cases acc with
      | nil => simpa [nonWs, List.filter_cons, hc] using ih []
      | cons a t =>
        rw [if_neg (by simp)]
        simp only [List.flatten_cons, ih []]
        simp [nonWs, List.filter_cons, hc]
    · rw [if_neg (by simp [hc])]
      rw [ih (c :: acc)]
      simp [nonWs, List.filter_cons, hc]

theorem flatten_fieldsGo (s : Str) : (fieldsGo s).flatten = nonWs s := by
  simpa using flatten_fieldsAux s []

theorem mem_fieldsAux (s : Str) :
    ∀ acc w : Str, (∀ ch ∈ acc, goIsSpace ch = false) → w ∈ fieldsAux s acc →
      w ≠ [] ∧ ∀ ch ∈ w, goIsSpace ch = false := by
  induction s with
  | nil =>
    intro acc w hacc hw
    cases acc with
    | nil => simp [fieldsAux] at hw
    | cons a t =>
      rw [fieldsAux, if_neg (by simp)] at hw
      rw [List.mem_singleton] at hw
      subst hw
      refine ⟨by simp, ?_⟩
      intro ch hch
      exact hacc ch (List.mem_reverse.mp hch)
  | cons c rest ih =>
    intro acc w hacc hw
    rw [fieldsAux] at hw
    by_cases hc : goIsSpace c
    · rw [if_pos hc] at hw
      cases acc with
      | nil =>
        rw [if_pos rfl] at hw
        exact ih [] w (by simp) hw
      | cons a t =>
        rw [if_neg (by simp), List.mem_cons] at hw
        rcases hw with hw | hw
        · subst hw
          refine ⟨by simp, ?_⟩
          intro ch hch
          exact hacc ch (List.mem_reverse.mp hch)
        · exact ih [] w (by simp) hw
    · rw [if_neg (by simp [hc])] at hw
      refine ih (c :: acc) w ?_ hw
      intro ch hch
      rcases List.mem_cons.mp hch with h | h
      · subst h
        exact Bool.eq_false_iff.mpr hc
      · exact hacc ch h

theorem mem_fieldsGo (s w : Str) (hw : w ∈ fieldsGo s) :
    w ≠ [] ∧ ∀ ch ∈ w, goIsSpace ch = false :=
  mem_fieldsAux s [] w (by simp) hw

theorem fieldsAux_all_nonspace (s : Str) (h : ∀ ch ∈ s, goIsSpace ch = false) :
    ∀ acc : Str,
      fieldsAux s acc = if acc.reverse ++ s = [] then [] else [acc.reverse ++ s] := by
  induction s with
  | nil =>
    intro acc
    cases acc <;> simp [fieldsAux]
  | cons c rest ih =>
    intro acc
    have hc : goIsSpace c = false := h c (by simp)
    rw [fieldsAux, if_neg (by simp [hc])]
    rw [ih (fun ch hch => h ch (by simp [hch])) (c :: acc)]
    rw [if_neg (by simp)]
    rw [if_neg (by simp)]
    simp

theorem fieldsGo_single (w : Str) (hne : w ≠ []) (h : ∀ ch ∈ w, goIsSpace ch = false) :
    fieldsGo w = [w] := by
  unfold fieldsGo
  rw [fieldsAux_all_nonspace w h []]
  simp [hne]

/-! ### Word-loop invariants -/

theorem withinBudget_flush (tc : Str → Option Nat) (m : Int) (chunk : Chunk)
    (buf : Str) (cnt : Nat) (h : bufInvariant tc m buf cnt) (hne : buf ≠ []) :
    withinBudget tc m (flushChunk chunk buf cnt) := by
  rcases h with ⟨h1, _⟩ | ⟨_, h2 | h2⟩
  · exact absurd h1 hne
  · right
    refine ⟨?_, ?_⟩
    · simpa using fieldsGo_single buf hne h2.1
    · simpa using h2.2
  · left
    simpa using h2

theorem splitWordsLoop_nonWs (tc : Str → Option Nat) (chunk : Chunk) (m : Int) :
    ∀ (words : List Str) (buf : Str) (cnt : Nat) (cs : List Chunk) (log log' : List Str)
      (buf' : Str) (cnt' : Nat) (cs' : List Chunk),
      splitWordsLoop tc chunk m words buf cnt cs log = (log', some (buf', cnt', cs')) →
      nonWs (contentCat cs' ++ buf') = nonWs (contentCat cs ++ (buf ++ words.flatten)) := by
  intro words
  induction words with
  | nil =>
    intro buf cnt cs log log' buf' cnt' cs' h
    simp only [splitWordsLoop, Prod.mk.injEq, Option.some.injEq] at h
    obtain ⟨-, rfl, rfl, rfl⟩ := h
    simp
  | cons w rest ih =>
    intro buf cnt cs log log' buf' cnt' cs' h
    simp only [splitWordsLoop] at h
    cases htc : tc w with
    | none => simp [htc] at h
    | some wc =>
      simp only [htc] at h
      by_cases h1 : (cnt + wc : Int) > m
      · rw [if_pos h1] at h
        by_cases h2 : buf.length > 0
        · rw [if_pos h2] at h
          rw [ih w wc (cs ++ [flushChunk chunk buf cnt]) (log ++ [w]) log' buf' cnt' cs' h]
          simp [List.append_assoc]
        · rw [if_neg h2] at h
          rw [ih (buf ++ w) (cnt + wc) cs (log ++ [w]) log' buf' cnt' cs' h]
          simp [List.append_assoc]
      · rw [if_neg h1] at h
        by_cases h2 : buf.length > 0
        · rw [if_pos h2] at h
          rw [ih ((buf ++ [' ']) ++ w) (cnt + wc) cs (log ++ [w]) log' buf' cnt' cs' h]
          simp [List.append_assoc]
        · rw [if_neg h2] at h
          rw [ih (buf ++ w) (cnt + wc) cs (log ++ [w]) log' buf' cnt' cs' h]
          simp [List.append_assoc]

theorem splitWordsLoop_budget (tc : Str → Option Nat) (chunk : Chunk) (m : Int) :
    ∀ (words : List Str) (buf : Str) (cnt : Nat) (cs : List Chunk) (log log' : List Str)
      (buf' : Str) (cnt' : Nat) (cs' : List Chunk),
      (∀ w ∈ words, w ≠ [] ∧ ∀ ch ∈ w, goIsSpace ch = false) →
      (∀ c ∈ cs, withinBudget tc m c) →
      bufInvariant tc m buf cnt →
      splitWordsLoop tc chunk m words buf cnt cs log = (log', some (buf', cnt', cs')) →
      (∀ c ∈ cs', withinBudget tc m c) ∧ bufInvariant tc m buf' cnt' := by
  intro words
  induction words with
  | nil =>
    intro buf cnt cs log log' buf' cnt' cs' _ hcs hbuf h
    simp only [splitWordsLoop, Prod.mk.injEq, Option.some.injEq] at h
    obtain ⟨-, rfl, rfl, rfl⟩ := h
    exact ⟨hcs, hbuf⟩
  | cons w rest ih =>
    intro buf cnt cs log log' buf' cnt' cs' hwords hcs hbuf h
    obtain ⟨hwne, hwns⟩ := hwords w (List.mem_cons_self w rest)
    have hwords' : ∀ x ∈ rest, x ≠ [] ∧ ∀ ch ∈ x, goIsSpace ch = false :=
      fun x hx => hwords x (List.mem_cons_of_mem w hx)
    simp only [splitWordsLoop] at h
    cases htc : tc w with
    | none => simp [htc] at h
    | some wc =>
      simp only [htc] at h
      by_cases h1 : (cnt + wc : Int) > m
      · rw [if_pos h1] at h
        by_cases h2 : buf.length > 0
        · rw [if_pos h2] at h
          refine ih w wc (cs ++ [flushChunk chunk buf cnt]) (log ++ [w]) log' buf' cnt' cs'
            hwords' ?_ ?_ h
          · intro c hc
            rcases List.mem_append.mp hc with hc | hc
            · exact hcs c hc
            · rw [List.mem_singleton.mp hc]
              exact withinBudget_flush tc m chunk buf cnt hbuf (List.length_pos.mp h2)
          · exact Or.inr ⟨hwne, Or.inl ⟨hwns, htc⟩⟩
        · rw [if_neg h2] at h
          have hbe : buf = [] := List.eq_nil_of_length_eq_zero (Nat.eq_zero_of_not_pos h2)
          subst hbe
          have hc0 : cnt = 0 := by
            rcases hbuf with ⟨-, rfl⟩ | ⟨hne, -⟩
            · rfl
            · exact absurd rfl hne
          subst hc0
          rw [List.nil_append] at h
          refine ih w (0 + wc) cs (log ++ [w]) log' buf' cnt' cs' hwords' hcs ?_ h
          exact Or.inr ⟨hwne, Or.inl ⟨hwns, by simpa using htc⟩⟩
      · rw [if_neg h1] at h
        have hle : ((cnt + wc : Nat) : Int) ≤ m := by
          push_cast
          exact not_lt.mp h1
        by_cases h2 : buf.length > 0
        · rw [if_pos h2] at h
          refine ih ((buf ++ [' ']) ++ w) (cnt + wc) cs (log ++ [w]) log' buf' cnt' cs'
            hwords' hcs ?_ h
          refine Or.inr ⟨?_, Or.inr hle⟩
          intro hh
          exact hwne (List.append_eq_nil.mp hh).2
        · rw [if_neg h2] at h
          refine ih (buf ++ w) (cnt + wc) cs (log ++ [w]) log' buf' cnt' cs'
            hwords' hcs ?_ h
          refine Or.inr ⟨?_, Or.inr hle⟩
          intro hh
          exact hwne (List.append_eq_nil.mp hh).2

theorem splitWordsLoop_static (tc : Str → Option Nat) (chunk : Chunk) (m : Int) :
    ∀ (words : List Str) (buf : Str) (cnt : Nat) (cs : List Chunk) (log log' : List Str)
      (buf' : Str) (cnt' : Nat) (cs' : List Chunk),
      (∀ c ∈ cs, staticEq c chunk) →
      splitWordsLoop tc chunk m words buf cnt cs log = (log', some (buf', cnt', cs')) →
      ∀ c ∈ cs', staticEq c chunk := by
  intro words
  induction words with
  | nil =>
    intro buf cnt cs log log' buf' cnt' cs' hcs h
    simp only [splitWordsLoop, Prod.mk.injEq, Option.some.injEq] at h
    obtain ⟨-, rfl, rfl, rfl⟩ := h
    exact hcs
  | cons w rest ih =>
    intro buf cnt cs log log' buf' cnt' cs' hcs h
    simp only [splitWordsLoop] at h
    cases htc : tc w with
    | none => simp [htc] at h
    | some wc =>
      simp only [htc] at h
      have hext : ∀ c ∈ cs ++ [flushChunk chunk buf cnt], staticEq c chunk := by
        intro c hc
        rcases List.mem_append.mp hc with hc | hc
        · exact hcs c hc
        · rw [List.mem_singleton.mp hc]
          exact staticEq_flushChunk chunk buf cnt
      by_cases h1 : (cnt + wc : Int) > m
      · rw [if_pos h1] at h
        by_cases h2 : buf.length > 0
        · rw [if_pos h2] at h
          exact ih w wc (cs ++ [flushChunk chunk buf cnt]) (log ++ [w]) log' buf' cnt' cs'
            hext h
        · rw [if_neg h2] at h
          exact ih (buf ++ w) (cnt + wc) cs (log ++ [w]) log' buf' cnt' cs' hcs h
      · rw [if_neg h1] at h
        by_cases h2 : buf.length > 0
        · rw [if_pos h2] at h
          exact ih ((buf ++ [' ']) ++ w) (cnt + wc) cs (log ++ [w]) log' buf' cnt' cs' hcs h
        · rw [if_neg h2] at h
          exact ih (buf ++ w) (cnt + wc) cs (log ++ [w]) log' buf' cnt' cs' hcs h

theorem splitWordsLoop_log (tc : Str → Option Nat) (chunk : Chunk) (m : Int) :
    ∀ (words : List Str) (buf : Str) (cnt : Nat) (cs : List Chunk) (log log' : List Str)
      (r : Str × Nat × List Chunk),
      splitWordsLoop tc chunk m words buf cnt cs log = (log', some r) →
      ∀ q ∈ log', q ∈ log ∨ (tc q).isSome = true := by
  intro words
  induction words with
  | nil =>
    intro buf cnt cs log log' r h q hq
    simp only [splitWordsLoop, Prod.mk.injEq] at h
    exact Or.inl (h.1 ▸ hq)
  | cons w rest ih =>
    intro buf cnt cs log log' r h q hq
    simp only [splitWordsLoop] at h
    cases htc : tc w with
    | none => simp [htc] at h
    | some wc =>
      simp only [htc] at h
      have step : ∀ (buf2 : Str) (cnt2 : Nat) (cs2 : List Chunk),
          splitWordsLoop tc chunk m rest buf2 cnt2 cs2 (log ++ [w]) = (log', some r) →
          q ∈ log ∨ (tc q).isSome = true := by
        intro buf2 cnt2 cs2 hh
        rcases ih buf2 cnt2 cs2 (log ++ [w]) log' r hh q hq with hin | hsome
        · rcases List.mem_append.mp hin with hin | hin
          · exact Or.inl hin
          · rw [List.mem_singleton.mp hin]
            exact Or.inr (by simp [htc])
        · exact Or.inr hsome
      by_cases h1 : (cnt + wc : Int) > m
      · rw [if_pos h1] at h
        by_cases h2 : buf.length > 0
        · rw [if_pos h2] at h
          exact step w wc (cs ++ [flushChunk chunk buf cnt]) h
        · rw [if_neg h2] at h
          exact step (buf ++ w) (cnt + wc) cs h
      · rw [if_neg h1] at h
        by_cases h2 : buf.length > 0
        · rw [if_pos h2] at h
          exact step ((buf ++ [' ']) ++ w) (cnt + wc) cs h
        · rw [if_neg h2] at h
          exact step (buf ++ w) (cnt + wc) cs h

/-! ### Line-loop invariants -/

theorem splitLinesLoop_nonWs (tc : Str → Option Nat) (chunk : Chunk) (m : Int) :
    ∀ (lines : List Str) (acc : Str) (cnt : Nat) (cs : List Chunk) (log log' : List Str)
      (acc' : Str) (cnt' : Nat) (cs' : List Chunk),
      splitLinesLoop tc chunk m lines acc cnt cs log = (log', some (acc', cnt', cs')) →
      nonWs (contentCat cs' ++ acc') = nonWs (contentCat cs ++ (acc ++ lines.flatten)) := by
  intro lines
  induction lines with
  | nil =>
    intro acc cnt cs log log' acc' cnt' cs' h
    simp only [splitLinesLoop, Prod.mk.injEq, Option.some.injEq] at h
    obtain ⟨-, rfl, rfl, rfl⟩ := h
    simp
  | cons line rest ih =>
    intro acc cnt cs log log' acc' cnt' cs' h
    simp only [splitLinesLoop] at h
    cases htc : tc line with
    | none => simp [htc] at h
    | some ltc =>
      simp only [htc] at h
      by_cases h1 : (ltc : Int) > m
      · rw [if_pos h1] at h
        by_cases h2 : acc.length > 0
        · rw [if_pos h2] at h
          rcases hW : splitWordsLoop tc chunk m (fieldsGo line) [] 0
              (cs ++ [flushChunk chunk acc cnt]) (log ++ [line]) with ⟨log2, res2⟩
          rw [hW] at h
          cases res2 with
          | none => simp at h
          | some t =>
            obtain ⟨wbuf, wcnt, cs2⟩ := t
            simp only [] at h
            simp only [if_pos h2] at h
            have hWn := splitWordsLoop_nonWs tc chunk m (fieldsGo line) [] 0
              (cs ++ [flushChunk chunk acc cnt]) (log ++ [line]) log2 wbuf wcnt cs2 hW
            rw [List.nil_append, flatten_fieldsGo] at hWn
            by_cases h3 : wbuf.length > 0
            · rw [if_pos h3] at h
              rw [ih [] 0 (cs2 ++ [flushChunk chunk wbuf wcnt]) log2 log' acc' cnt' cs' h]
              simp only [contentCat_append, contentCat_singleton, flushChunk_Content,
                nonWs_append, nonWs_idem, List.append_assoc] at hWn ⊢
              simp only [List.flatten_cons, nonWs_append, List.append_nil, List.nil_append,
                List.append_assoc]
              rw [← List.append_assoc (nonWs (contentCat cs2)) (nonWs wbuf)]
              rw [hWn]
              simp [List.append_assoc]
            · rw [if_neg h3] at h
              have hwbe : wbuf = [] := List.eq_nil_of_length_eq_zero (Nat.eq_zero_of_not_pos h3)
              subst hwbe
              rw [ih [] 0 cs2 log2 log' acc' cnt' cs' h]
              simp only [contentCat_append, contentCat_singleton, flushChunk_Content,
                nonWs_append, nonWs_idem, nonWs_nil, List.append_nil,
                List.append_assoc] at hWn ⊢
              rw [hWn]
              simp [List.append_assoc]
        · rw [if_neg h2] at h
          have hae : acc = [] := List.eq_nil_of_length_eq_zero (Nat.eq_zero_of_not_pos h2)
          subst hae
          rcases hW : splitWordsLoop tc chunk m (fieldsGo line) [] 0 cs (log ++ [line])
            with ⟨log2, res2⟩
          rw [hW] at h
          cases res2 with
          | none => simp at h
          | some t =>
            obtain ⟨wbuf, wcnt, cs2⟩ := t
            simp only [] at h
            simp only [if_neg h2] at h
            have hWn := splitWordsLoop_nonWs tc chunk m (fieldsGo line) [] 0
              cs (log ++ [line]) log2 wbuf wcnt cs2 hW
            rw [List.nil_append, flatten_fieldsGo] at hWn
            by_cases h3 : wbuf.length > 0
            · rw [if_pos h3] at h
              rw [ih [] cnt (cs2 ++ [flushChunk chunk wbuf wcnt]) log2 log' acc' cnt' cs' h]
              simp only [contentCat_append, contentCat_singleton, flushChunk_Content,
                nonWs_append, nonWs_idem, List.append_assoc] at hWn ⊢
              simp only [List.flatten_cons, nonWs_append, List.append_nil, List.nil_append,
                List.append_assoc]
              rw [← List.append_assoc (nonWs (contentCat cs2)) (nonWs wbuf)]
              rw [hWn]
              simp [List.append_assoc]
            · rw [if_neg h3] at h
              have hwbe : wbuf = [] := List.eq_nil_of_length_eq_zero (Nat.eq_zero_of_not_pos h3)
              subst hwbe
              rw [ih [] cnt cs2 log2 log' acc' cnt' cs' h]
              simp only [contentCat_append, contentCat_singleton, flushChunk_Content,
                nonWs_append, nonWs_idem, nonWs_nil, List.append_nil,
                List.append_assoc] at hWn ⊢
              rw [hWn]
              simp [List.append_assoc]
      · rw [if_neg h1] at h
        by_cases h2 : (cnt + ltc : Int) > m
        · rw [if_pos h2] at h
          rw [ih line ltc (cs ++ [flushChunk chunk acc cnt]) (log ++ [line]) log' acc' cnt' cs' h]
          simp [List.append_assoc]
        · rw [if_neg h2] at h
          by_cases h3 : acc.length > 0
          · rw [if_pos h3] at h
            rw [ih ((acc ++ ['\n']) ++ line) (cnt + ltc) cs (log ++ [line]) log' acc' cnt' cs' h]
            simp [List.append_assoc]
          · rw [if_neg h3] at h
            rw [ih (acc ++ line) (cnt + ltc) cs (log ++ [line]) log' acc' cnt' cs' h]
            simp [List.append_assoc]

theorem splitLinesLoop_budget (tc : Str → Option Nat) (chunk : Chunk) (m : Int) (hm : 0 ≤ m) :
    ∀ (lines : List Str) (acc : Str) (cnt : Nat) (cs : List Chunk) (log log' : List Str)
      (acc' : Str) (cnt' : Nat) (cs' : List Chunk),
      (∀ c ∈ cs, withinBudget tc m c) →
      (cnt : Int) ≤ m →
      splitLinesLoop tc chunk m lines acc cnt cs log = (log', some (acc', cnt', cs')) →
      (∀ c ∈ cs', withinBudget tc m c) ∧ (cnt' : Int) ≤ m := by
  intro lines
  induction lines with
  | nil =>
    intro acc cnt cs log log' acc' cnt' cs' hcs hcnt h
    simp only [splitLinesLoop, Prod.mk.injEq, Option.some.injEq] at h
    obtain ⟨-, rfl, rfl, rfl⟩ := h
    exact ⟨hcs, hcnt⟩
  | cons line rest ih =>
    intro acc cnt cs log log' acc' cnt' cs' hcs hcnt h
    simp only [splitLinesLoop] at h
    cases htc : tc line with
    | none => simp [htc] at h
    | some ltc =>
      simp only [htc] at h
      by_cases h1 : (ltc : Int) > m
      · rw [if_pos h1] at h
        -- the flushed accumulator chunk (if any) has size `cnt ≤ m`
        have hflush : ∀ c ∈ cs ++ [flushChunk chunk acc cnt], withinBudget tc m c := by
          intro c hc
          rcases List.mem_append.mp hc with hc | hc
          · exact hcs c hc
          · rw [List.mem_singleton.mp hc]
            left
            simpa using hcnt
        have hwords : ∀ w ∈ fieldsGo line, w ≠ [] ∧ ∀ ch ∈ w, goIsSpace ch = false :=
          fun w hw => mem_fieldsGo line w hw
        by_cases h2 : acc.length > 0
        · rw [if_pos h2] at h
          rcases hW : splitWordsLoop tc chunk m (fieldsGo line) [] 0
              (cs ++ [flushChunk chunk acc cnt]) (log ++ [line]) with ⟨log2, res2⟩
          rw [hW] at h
          cases res2 with
          | none => simp at h
          | some t =>
            obtain ⟨wbuf, wcnt, cs2⟩ := t
            simp only [] at h
            simp only [if_pos h2] at h
            obtain ⟨hcs2, hbuf2⟩ := splitWordsLoop_budget tc chunk m (fieldsGo line) [] 0
              (cs ++ [flushChunk chunk acc cnt]) (log ++ [line]) log2 wbuf wcnt cs2
              hwords hflush (Or.inl ⟨rfl, rfl⟩) hW
            by_cases h3 : wbuf.length > 0
            · rw [if_pos h3] at h
              refine ih [] 0 (cs2 ++ [flushChunk chunk wbuf wcnt]) log2 log' acc' cnt' cs' ?_
                (by simpa using hm) h
              intro c hc
              rcases List.mem_append.mp hc with hc | hc
              · exact hcs2 c hc
              · rw [List.mem_singleton.mp hc]
                exact withinBudget_flush tc m chunk wbuf wcnt hbuf2 (List.length_pos.mp h3)
            · rw [if_neg h3] at h
              exact ih [] 0 cs2 log2 log' acc' cnt' cs' hcs2 (by simpa using hm) h
        · rw [if_neg h2] at h
          rcases hW : splitWordsLoop tc chunk m (fieldsGo line) [] 0 cs (log ++ [line])
            with ⟨log2, res2⟩
          rw [hW] at h
          cases res2 with
          | none => simp at h
          | some t =>
            obtain ⟨wbuf, wcnt, cs2⟩ := t
            simp only [] at h
            simp only [if_neg h2] at h
            obtain ⟨hcs2, hbuf2⟩ := splitWordsLoop_budget tc chunk m (fieldsGo line) [] 0
              cs (log ++ [line]) log2 wbuf wcnt cs2 hwords hcs (Or.inl ⟨rfl, rfl⟩) hW
            by_cases h3 : wbuf.length > 0
            · rw [if_pos h3] at h
              refine ih acc cnt (cs2 ++ [flushChunk chunk wbuf wcnt]) log2 log' acc' cnt' cs' ?_
                hcnt h
              intro c hc
              rcases List.mem_append.mp hc with hc | hc
              · exact hcs2 c hc
              · rw [List.mem_singleton.mp hc]
                exact withinBudget_flush tc m chunk wbuf wcnt hbuf2 (List.length_pos.mp h3)
            · rw [if_neg h3] at h
              exact ih acc cnt cs2 log2 log' acc' cnt' cs' hcs2 hcnt h
      · rw [if_neg h1] at h
        have hltc : (ltc : Int) ≤ m := not_lt.mp h1
        by_cases h2 : (cnt + ltc : Int) > m
        · rw [if_pos h2] at h
          refine ih line ltc (cs ++ [flushChunk chunk acc cnt]) (log ++ [line]) log' acc' cnt'
            cs' ?_ hltc h
          intro c hc
          rcases List.mem_append.mp hc with hc | hc
          · exact hcs c hc
          · rw [List.mem_singleton.mp hc]
            left
            simpa using hcnt
        · rw [if_neg h2] at h
          have hsum : ((cnt + ltc : Nat) : Int) ≤ m := by
            push_cast
            exact not_lt.mp h2
          by_cases h3 : acc.length > 0
          · rw [if_pos h3] at h
            exact ih ((acc ++ ['\n']) ++ line) (cnt + ltc) cs (log ++ [line]) log' acc' cnt' cs'
              hcs hsum h
          · rw [if_neg h3] at h
            exact ih (acc ++ line) (cnt + ltc) cs (log ++ [line]) log' acc' cnt' cs' hcs hsum h

theorem splitLinesLoop_static (tc : Str → Option Nat) (chunk : Chunk) (m : Int) :
    ∀ (lines : List Str) (acc : Str) (cnt : Nat) (cs : List Chunk) (log log' : List Str)
      (acc' : Str) (cnt' : Nat) (cs' : List Chunk),
      (∀ c ∈ cs, staticEq c chunk) →
      splitLinesLoop tc chunk m lines acc cnt cs log = (log', some (acc', cnt', cs')) →
      ∀ c ∈ cs', staticEq c chunk := by
  intro lines
  induction lines with
  | nil =>
    intro acc cnt cs log log' acc' cnt' cs' hcs h
    simp only [splitLinesLoop, Prod.mk.injEq, Option.some.injEq] at h
    obtain ⟨-, rfl, rfl, rfl⟩ := h
    exact hcs
  | cons line rest ih =>
    intro acc cnt cs log log' acc' cnt' cs' hcs h
    simp only [splitLinesLoop] at h
    cases htc : tc line with
    | none => simp [htc] at h
    | some ltc =>
      simp only [htc] at h
      have hext : ∀ (b : Str) (n : Nat) (l : List Chunk), (∀ c ∈ l, staticEq c chunk) →
          ∀ c ∈ l ++ [flushChunk chunk b n], staticEq c chunk := by
        intro b n l hl c hc
        rcases List.mem_append.mp hc with hc | hc
        · exact hl c hc
        · rw [List.mem_singleton.mp hc]
          exact staticEq_flushChunk chunk b n
      by_cases h1 : (ltc : Int) > m
      · rw [if_pos h1] at h
        by_cases h2 : acc.length > 0
        · rw [if_pos h2] at h
          rcases hW : splitWordsLoop tc chunk m (fieldsGo line) [] 0
              (cs ++ [flushChunk chunk acc cnt]) (log ++ [line]) with ⟨log2, res2⟩
          rw [hW] at h
          cases res2 with
          | none => simp at h
          | some t =>
            obtain ⟨wbuf, wcnt, cs2⟩ := t
            simp only [] at h
            simp only [if_pos h2] at h
            have hcs2 := splitWordsLoop_static tc chunk m (fieldsGo line) [] 0
              (cs ++ [flushChunk chunk acc cnt]) (log ++ [line]) log2 wbuf wcnt cs2
              (hext acc cnt cs hcs) hW
            by_cases h3 : wbuf.length > 0
            · rw [if_pos h3] at h
              exact ih [] 0 (cs2 ++ [flushChunk chunk wbuf wcnt]) log2 log' acc' cnt' cs'
                (hext wbuf wcnt cs2 hcs2) h
            · rw [if_neg h3] at h
              exact ih [] 0 cs2 log2 log' acc' cnt' cs' hcs2 h
        · rw [if_neg h2] at h
          rcases hW : splitWordsLoop tc chunk m (fieldsGo line) [] 0 cs (log ++ [line])
            with ⟨log2, res2⟩
          rw [hW] at h
          cases res2 with
          | none => simp at h
          | some t =>
            obtain ⟨wbuf, wcnt, cs2⟩ := t
            simp only [] at h
            simp only [if_neg h2] at h
            have hcs2 := splitWordsLoop_static tc chunk m (fieldsGo line) [] 0
              cs (log ++ [line]) log2 wbuf wcnt cs2 hcs hW
            by_cases h3 : wbuf.length > 0
            · rw [if_pos h3] at h
              exact ih acc cnt (cs2 ++ [flushChunk chunk wbuf wcnt]) log2 log' acc' cnt' cs'
                (hext wbuf wcnt cs2 hcs2) h
            · rw [if_neg h3] at h
              exact ih acc cnt cs2 log2 log' acc' cnt' cs' hcs2 h
      · rw [if_neg h1] at h
        by_cases h2 : (cnt + ltc : Int) > m
        · rw [if_pos h2] at h
          exact ih line ltc (cs ++ [flushChunk chunk acc cnt]) (log ++ [line]) log' acc' cnt' cs'
            (hext acc cnt cs hcs) h
        · rw [if_neg h2] at h
          by_cases h3 : acc.length > 0
          · rw [if_pos h3] at h
            exact ih ((acc ++ ['\n']) ++ line) (cnt + ltc) cs (log ++ [line]) log' acc' cnt' cs'
              hcs h
          · rw [if_neg h3] at h
            exact ih (acc ++ line) (cnt + ltc) cs (log ++ [line]) log' acc' cnt' cs' hcs h

theorem splitLinesLoop_log (tc : Str → Option Nat) (chunk : Chunk) (m : Int) :
    ∀ (lines : List Str) (acc : Str) (cnt : Nat) (cs : List Chunk) (log log' : List Str)
      (r : Str × Nat × List Chunk),
      splitLinesLoop tc chunk m lines acc cnt cs log = (log', some r) →
      ∀ q ∈ log', q ∈ log ∨ (tc q).isSome = true := by
  intro lines
  induction lines with
  | nil =>
    intro acc cnt cs log log' r h q hq
    simp only [splitLinesLoop, Prod.mk.injEq] at h
    exact Or.inl (h.1 ▸ hq)
  | cons line rest ih =>
    intro acc cnt cs log log' r h q hq
    simp only [splitLinesLoop] at h
    cases htc : tc line with
    | none => simp [htc] at h
    | some ltc =>
      simp only [htc] at h
      have hline : ∀ x : Str, x ∈ log ++ [line] → x ∈ log ∨ (tc x).isSome = true := by
        intro x hx
        rcases List.mem_append.mp hx with hx | hx
        · exact Or.inl hx
        · rw [List.mem_singleton.mp hx]
          exact Or.inr (by simp [htc])
      by_cases h1 : (ltc : Int) > m
      · rw [if_pos h1] at h
        by_cases h2 : acc.length > 0
        · rw [if_pos h2] at h
          rcases hW : splitWordsLoop tc chunk m (fieldsGo line) [] 0
              (cs ++ [flushChunk chunk acc cnt]) (log ++ [line]) with ⟨log2, res2⟩
          rw [hW] at h
          cases res2 with
          | none => simp at h
          | some t =>
            obtain ⟨wbuf, wcnt, cs2⟩ := t
            simp only [] at h
            simp only [if_pos h2] at h
            have hq2 : ∀ x ∈ log2, x ∈ log ∨ (tc x).isSome = true := by
              intro x hx
              rcases splitWordsLoop_log tc chunk m (fieldsGo line) [] 0
                  (cs ++ [flushChunk chunk acc cnt]) (log ++ [line]) log2
                  (wbuf, wcnt, cs2) hW x hx with hx2 | hx2
              · exact hline x hx2
              · exact Or.inr hx2
            by_cases h3 : wbuf.length > 0
            · rw [if_pos h3] at h
              rcases ih [] 0 (cs2 ++ [flushChunk chunk wbuf wcnt]) log2 log' r h q hq
                with hx | hx
              · exact hq2 q hx
              · exact Or.inr hx
            · rw [if_neg h3] at h
              rcases ih [] 0 cs2 log2 log' r h q hq with hx | hx
              · exact hq2 q hx
              · exact Or.inr hx
        · rw [if_neg h2] at h
          rcases hW : splitWordsLoop tc chunk m (fieldsGo line) [] 0 cs (log ++ [line])
            with ⟨log2, res2⟩
          rw [hW] at h
          cases res2 with
          | none => simp at h
          | some t =>
            obtain ⟨wbuf, wcnt, cs2⟩ := t
            simp only [] at h
            simp only [if_neg h2] at h
            have hq2 : ∀ x ∈ log2, x ∈ log ∨ (tc x).isSome = true := by
              intro x hx
              rcases splitWordsLoop_log tc chunk m (fieldsGo line) [] 0
                  cs (log ++ [line]) log2 (wbuf, wcnt, cs2) hW x hx with hx2 | hx2
              · exact hline x hx2
              · exact Or.inr hx2
            by_cases h3 : wbuf.length > 0
            · rw [if_pos h3] at h
              rcases ih acc cnt (cs2 ++ [flushChunk chunk wbuf wcnt]) log2 log' r h q hq
                with hx | hx
              · exact hq2 q hx
              · exact Or.inr hx
            · rw [if_neg h3] at h
              rcases ih acc cnt cs2 log2 log' r h q hq with hx | hx
              · exact hq2 q hx
              · exact Or.inr hx
      · rw [if_neg h1] at h
        by_cases h2 : (cnt + ltc : Int) > m
        · rw [if_pos h2] at h
          rcases ih line ltc (cs ++ [flushChunk chunk acc cnt]) (log ++ [line]) log' r h q hq
            with hx | hx
          · exact hline q hx
          · exact Or.inr hx
        · rw [if_neg h2] at h
          by_cases h3 : acc.length > 0
          · rw [if_pos h3] at h
            rcases ih ((acc ++ ['\n']) ++ line) (cnt + ltc) cs (log ++ [line]) log' r h q hq
              with hx | hx
            · exact hline q hx
            · exact Or.inr hx
          · rw [if_neg h3] at h
            rcases ih (acc ++ line) (cnt + ltc) cs (log ++ [line]) log' r h q hq with hx | hx
            · exact hline q hx
            · exact Or.inr hx

/-! ### Top-level `splitChunk` lemmas -/

theorem splitChunk_inv (tc : Str → Option Nat) (chunk : Chunk) (m : Int)
    (cs : List Chunk) (cell : Chunk)
    (h : splitChunk tc chunk m = some (cs, cell)) :
    (cs = [chunk] ∧ cell = chunk ∧
      (m ≤ 0 ∨ ∃ n, tc chunk.Content = some n ∧ (n : Int) ≤ m)) ∨
    (0 < m ∧ cell = cs.getLastD chunk ∧
      ∃ (log2 : List Str) (acc2 : Str) (cnt2 : Nat) (cs2 : List Chunk),
        splitLinesLoop tc chunk m (splitLinesGo chunk.Content) [] 0 [] [chunk.Content] =
          (log2, some (acc2, cnt2, cs2)) ∧
        cs = (if acc2.length > 0 then cs2 ++ [flushChunk chunk acc2 cnt2] else cs2)) := by
  unfold splitChunk splitChunkR at h
  by_cases hm : m ≤ 0
  · rw [if_pos hm] at h
    simp only [Prod.mk.injEq, Option.some.injEq] at h
    exact Or.inl ⟨h.1.symm, h.2.symm, Or.inl hm⟩
  · rw [if_neg hm] at h
    cases htc : tc chunk.Content with
    | none => simp [htc] at h
    | some tokenCount =>
      simp only [htc] at h
      by_cases hle : (tokenCount : Int) ≤ m
      · rw [if_pos hle] at h
        simp only [Prod.mk.injEq, Option.some.injEq] at h
        exact Or.inl ⟨h.1.symm, h.2.symm, Or.inr ⟨tokenCount, rfl, hle⟩⟩
      · rw [if_neg hle] at h
        rcases hL : splitLinesLoop tc chunk m (splitLinesGo chunk.Content) [] 0 []
          [chunk.Content] with ⟨log2, res⟩
        rw [hL] at h
        cases res with
        | none => simp at h
        | some t =>
          obtain ⟨acc2, cnt2, cs2⟩ := t
          simp only [Option.some.injEq, Prod.mk.injEq] at h
          obtain ⟨hcs, hcell⟩ := h
          subst hcs
          subst hcell
          exact Or.inr ⟨lt_of_not_ge hm, rfl, log2, acc2, cnt2, cs2, rfl, rfl⟩

theorem staticEq_getLastD (cs : List Chunk) (chunk : Chunk)
    (hall : ∀ c ∈ cs, staticEq c chunk) : staticEq (cs.getLastD chunk) chunk := by
  cases cs with
  | nil => exact staticEq_refl chunk
  | cons a t => exact hall _ (mem_getLastD (a :: t) chunk (by simp))

theorem splitChunk_static_core (tc : Str → Option Nat) (chunk : Chunk) (m : Int)
    (cs : List Chunk) (cell : Chunk) (h : splitChunk tc chunk m = some (cs, cell)) :
    (∀ c ∈ cs, staticEq c chunk) ∧ cell = cs.getLastD chunk := by
  rcases splitChunk_inv tc chunk m cs cell h with ⟨rfl, rfl, -⟩ |
    ⟨-, hcell, log2, acc2, cnt2, cs2, hL, rfl⟩
  · constructor
    · intro c hc
      rw [List.mem_singleton.mp hc]
      exact staticEq_refl _
    · rfl
  · have hcs2 := splitLinesLoop_static tc chunk m (splitLinesGo chunk.Content) [] 0 []
      [chunk.Content] log2 acc2 cnt2 cs2 (by intro c hc; simp at hc) hL
    refine ⟨?_, hcell⟩
    by_cases h3 : acc2.length > 0
    · rw [if_pos h3]
      intro c hc
      rcases List.mem_append.mp hc with hc | hc
      · exact hcs2 c hc
      · rw [List.mem_singleton.mp hc]
        exact staticEq_flushChunk chunk acc2 cnt2
    · rw [if_neg h3]
      exact hcs2

/-- Claim C1 (amended): for every chunk, positive budget and counter behaviour,
concatenating the contents *written at each flush* (the snapshot history of the
shared record) reproduces all non-whitespace content of the original chunk.
(As stated over the returned sub-chunks the claim fails: the returned slice
elements all alias the shared record, so after the call their contents are all
the final flush's content — see the counterexample.) -/
theorem splitChunk_flushes_nonWs_complete (tc : Str → Option Nat) (chunk : Chunk)
    (m : Int) (cs : List Chunk) (cell : Chunk) (_hm : 0 < m)
    (h : splitChunk tc chunk m = some (cs, cell)) :
    nonWs (contentCat cs) = nonWs chunk.Content := by
  rcases splitChunk_inv tc chunk m cs cell h with ⟨rfl, rfl, -⟩ |
    ⟨-, -, log2, acc2, cnt2, cs2, hL, rfl⟩
  · simp
  · have hn := splitLinesLoop_nonWs tc chunk m (splitLinesGo chunk.Content) [] 0 []
      [chunk.Content] log2 acc2 cnt2 cs2 hL
    rw [contentCat_nil, List.nil_append, List.nil_append, nonWs_flatten_splitLinesGo] at hn
    by_cases h3 : acc2.length > 0
    · rw [if_pos h3]
      simpa [List.append_assoc] using hn
    · rw [if_neg h3]
      have hae : acc2 = [] := List.eq_nil_of_length_eq_zero (Nat.eq_zero_of_not_pos h3)
      subst hae
      simpa using hn

/-- Claim C1 (counterexample): for `chunkEx` (content `"aa\nbb"`) with budget 1,
`splitChunk` flushes `"aa"` then `"bb"`, but every element of the returned
slice aliases the input record, whose final content is `"bb"`; concatenating
the contents of the sub-chunks actually returned gives `"bbbb"`, not the
non-whitespace content `"aabb"` of the original. -/
theorem splitChunk_observed_concat_incomplete_cex :
    splitChunk tcEx chunkEx 1 = some ([chunkExA, chunkExB], chunkExB) ∧
    nonWs (contentCat (observedChunks ([chunkExA, chunkExB], chunkExB))) ≠
      nonWs chunkEx.Content := by
  decide

/-- Claim C1 (witness): the amended theorem evaluated at `chunkEx`, budget 1. -/
theorem splitChunk_flushes_nonWs_complete_witness :
    nonWs (contentCat [chunkExA, chunkExB]) = nonWs chunkEx.Content :=
  splitChunk_flushes_nonWs_complete tcEx chunkEx 1 [chunkExA, chunkExB] chunkExB
    (by decide) (by decide)

/-- Claim C2 (amended): every flush snapshot, the final shared record, and
hence every returned (observed) sub-chunk carries the input chunk's type, name,
receiver, lang, path, start and end — only `Content` and `Size` are rewritten.
(The claim's parenthetical — that each returned sub-chunk holds the content and
size of the buffer flushed to produce it — fails: after the call every returned
element holds the *last* flushed buffer, see the counterexample.) -/
theorem splitChunk_subchunks_static_fields (tc : Str → Option Nat) (chunk : Chunk)
    (m : Int) (cs : List Chunk) (cell : Chunk)
    (h : splitChunk tc chunk m = some (cs, cell)) :
    (∀ c ∈ cs, staticEq c chunk) ∧ staticEq cell chunk ∧
    ∀ c ∈ observedChunks (cs, cell), staticEq c chunk := by
  obtain ⟨hall, hcell⟩ := splitChunk_static_core tc chunk m cs cell h
  have hc2 : staticEq cell chunk := hcell ▸ staticEq_getLastD cs chunk hall
  refine ⟨hall, hc2, ?_⟩
  intro c hc
  simp only [observedChunks] at hc
  rw [List.eq_of_mem_replicate hc]
  exact hc2

/-- Claim C2 (counterexample): the two flushes write `"aa"` (size 1) then
`"bb"` (size 1), but both returned sub-chunks hold `"bb"` — the first returned
sub-chunk does not hold the content of the buffer flushed to produce it. -/
theorem splitChunk_observed_not_flush_buffers_cex :
    splitChunk tcEx chunkEx 1 = some ([chunkExA, chunkExB], chunkExB) ∧
    chunkExA.Content ≠ chunkExB.Content ∧
    (observedChunks ([chunkExA, chunkExB], chunkExB)).map Chunk.Content =
      [chunkExB.Content, chunkExB.Content] := by
  decide

/-- Claim C2 (witness): the amended theorem evaluated at `chunkEx`, budget 1. -/
theorem splitChunk_subchunks_static_fields_witness :
    staticEq chunkExA chunkEx ∧ staticEq chunkExB chunkEx :=
  ⟨(splitChunk_subchunks_static_fields tcEx chunkEx 1 [chunkExA, chunkExB] chunkExB
      (by decide)).1 chunkExA (by decide),
   (splitChunk_subchunks_static_fields tcEx chunkEx 1 [chunkExA, chunkExB] chunkExB
      (by decide)).1 chunkExB (by decide)⟩

/-- Claim C3 (amended): `newChunk := chunk` copies the pointer, so `splitChunk`
mutates the caller's record: after the call the input record equals the last
flush snapshot (it is unchanged only when nothing was flushed), only its
`Content` and `Size` changed, and every element of the returned slice is that
one shared record. -/
theorem splitChunk_aliasing_characterization (tc : Str → Option Nat) (c : Chunk)
    (m : Int) (r : List Chunk × Chunk) (h : splitChunk tc c m = some r) :
    r.2 = r.1.getLastD c ∧ staticEq r.2 c ∧
    observedChunks r = List.replicate r.1.length r.2 := by
  obtain ⟨cs, cell⟩ := r
  obtain ⟨hall, hcell⟩ := splitChunk_static_core tc c m cs cell h
  exact ⟨hcell, hcell ▸ staticEq_getLastD cs c hall, rfl⟩

/-- Claim C3 (counterexample): at `chunkEx` with budget 1 the input record's
content and size after the call are `"bb"`/1, not the original `"aa\nbb"`/3,
and both returned sub-chunks are that same record. -/
theorem splitChunk_mutates_input_cex :
    splitChunk tcEx chunkEx 1 = some ([chunkExA, chunkExB], chunkExB) ∧
    chunkExB.Content ≠ chunkEx.Content ∧ chunkExB.Size ≠ chunkEx.Size ∧
    observedChunks ([chunkExA, chunkExB], chunkExB) = [chunkExB, chunkExB] := by
  decide

/-- Claim C3 (witness): the amended theorem evaluated at `chunkEx`, budget 1. -/
theorem splitChunk_aliasing_characterization_witness :
    chunkExB = [chunkExA, chunkExB].getLastD chunkEx ∧ staticEq chunkExB chunkEx ∧
    observedChunks ([chunkExA, chunkExB], chunkExB) =
      List.replicate [chunkExA, chunkExB].length chunkExB :=
  splitChunk_aliasing_characterization tcEx chunkEx 1 ([chunkExA, chunkExB], chunkExB)
    (by decide)

/-- Claim C4: for every chunk whose recorded size is its token count, every
positive budget, and every counter behaviour, every sub-chunk (flush snapshot
or returned element) either has recorded size within the budget or is a single
whitespace-delimited word whose own token count is its recorded size (which
then exceeds the budget). -/
theorem splitChunk_budget_respected (tc : Str → Option Nat) (chunk : Chunk) (m : Int)
    (cs : List Chunk) (cell : Chunk) (hm : 0 < m)
    (hsize : tc chunk.Content = some chunk.Size)
    (h : splitChunk tc chunk m = some (cs, cell)) :
    ∀ c, c ∈ cs ∨ c ∈ observedChunks (cs, cell) → withinBudget tc m c := by
  have hmain : ∀ c ∈ cs, withinBudget tc m c := by
    rcases splitChunk_inv tc chunk m cs cell h with ⟨rfl, rfl, hearly⟩ |
      ⟨-, -, log2, acc2, cnt2, cs2, hL, rfl⟩
    · rcases hearly with hle | ⟨n, hn, hle⟩
      · exact absurd hle (not_le.mpr hm)
      · intro c hc
        rw [List.mem_singleton.mp hc]
        left
        rw [hsize] at hn
        rw [Option.some.inj hn]
        exact hle
    · obtain ⟨hcs2, hcnt2⟩ := splitLinesLoop_budget tc chunk m (le_of_lt hm)
        (splitLinesGo chunk.Content) [] 0 [] [chunk.Content] log2 acc2 cnt2 cs2
        (by intro c hc; simp at hc) (by simpa using le_of_lt hm) hL
      by_cases h3 : acc2.length > 0
      · rw [if_pos h3]
        intro c hc
        rcases List.mem_append.mp hc with hc | hc
        · exact hcs2 c hc
        · rw [List.mem_singleton.mp hc]
          left
          simpa using hcnt2
      · rw [if_neg h3]
        exact hcs2
  intro c hc
  rcases hc with hc | hc
  · exact hmain c hc
  · simp only [observedChunks] at hc
    rcases hcs : cs with _ | ⟨a, t⟩
    · rw [hcs] at hc
      simp at hc
    · rw [List.eq_of_mem_replicate hc]
      obtain ⟨-, hcell⟩ := splitChunk_static_core tc chunk m cs cell h
      rw [hcell]
      exact hmain _ (mem_getLastD cs chunk (by rw [hcs]; simp))

/-- Claim C4 (witness): the theorem evaluated at `chunkEx`, budget 1; both
sub-chunks respect the budget. -/
theorem splitChunk_budget_respected_witness :
    withinBudget tcEx 1 chunkExA ∧ withinBudget tcEx 1 chunkExB :=
  ⟨splitChunk_budget_respected tcEx chunkEx 1 [chunkExA, chunkExB] chunkExB
      (by decide) (by decide) (by decide) chunkExA (Or.inl (by decide)),
   splitChunk_budget_respected tcEx chunkEx 1 [chunkExA, chunkExB] chunkExB
      (by decide) (by decide) (by decide) chunkExB (Or.inl (by decide))⟩

/-- Claim C8: if any token-count invocation performed during splitting fails,
`splitChunk` returns a failure — no zero count is substituted.
(`splitChunkQueries` is the exact list of counter invocations performed.) -/
theorem splitChunk_tc_failure_propagates (tc : Str → Option Nat) (chunk : Chunk)
    (m : Int) (q : Str) (hq : q ∈ splitChunkQueries tc chunk m) (hfail : tc q = none) :
    splitChunk tc chunk m = none := by
  rcases hR : splitChunkR tc chunk m with ⟨lg, res⟩
  have hq2 : q ∈ lg := by
    unfold splitChunkQueries at hq
    rw [hR] at hq
    exact hq
  have hgoal : splitChunk tc chunk m = res := by
    unfold splitChunk
    rw [hR]
  rw [hgoal]
  cases res with
  | none => rfl
  | some r =>
    exfalso
    unfold splitChunkR at hR
    by_cases hm : m ≤ 0
    · rw [if_pos hm] at hR
      simp only [Prod.mk.injEq] at hR
      rw [← hR.1] at hq2
      simp at hq2
    · rw [if_neg hm] at hR
      cases htc : tc chunk.Content with
      | none => simp [htc] at hR
      | some tokenCount =>
        simp only [htc] at hR
        by_cases hle : (tokenCount : Int) ≤ m
        · rw [if_pos hle] at hR
          simp only [Prod.mk.injEq] at hR
          rw [← hR.1] at hq2
          rw [List.mem_singleton.mp hq2] at hfail
          rw [htc] at hfail
          exact Option.noConfusion hfail
        · rw [if_neg hle] at hR
          rcases hL : splitLinesLoop tc chunk m (splitLinesGo chunk.Content) [] 0 []
            [chunk.Content] with ⟨log2, res2⟩
          rw [hL] at hR
          cases res2 with
          | none => simp at hR
          | some t =>
            obtain ⟨acc2, cnt2, cs2⟩ := t
            simp only [Prod.mk.injEq] at hR
            rw [← hR.1] at hq2
            rcases splitLinesLoop_log tc chunk m (splitLinesGo chunk.Content) [] 0 []
                [chunk.Content] log2 (acc2, cnt2, cs2) hL q hq2 with hin | hsome
            · rw [List.mem_singleton.mp hin] at hfail
              rw [htc] at hfail
              exact Option.noConfusion hfail
            · rw [hfail] at hsome
              simp at hsome

/-- Claim C8 (witness): with a counter failing on `chunkEx`'s content,
`splitChunk` fails. -/
theorem splitChunk_tc_failure_propagates_witness :
    splitChunk tcFail chunkEx 1 = none :=
  splitChunk_tc_failure_propagates tcFail chunkEx 1 chunkEx.Content (by decide) (by decide)

/-- Claim C9: with a non-positive budget `splitChunk` returns exactly the
single-element list holding the input chunk unchanged, and performs no token
counter invocation (empty query log). -/
theorem splitChunk_nonpositive_budget_identity (tc : Str → Option Nat) (chunk : Chunk)
    (m : Int) (hm : m ≤ 0) :
    splitChunkR tc chunk m = ([], some ([chunk], chunk)) := by
  unfold splitChunkR
  rw [if_pos hm]

/-- Claim C9 (witness): budget 0 on `chunkEx`, with a counter that would fail
if it were ever invoked. -/
theorem splitChunk_nonpositive_budget_identity_witness :
    splitChunkR tcFail chunkEx 0 = ([], some ([chunkEx], chunkEx)) :=
  splitChunk_nonpositive_budget_identity tcFail chunkEx 0 (by decide)

/-! ### Span-resolver claims -/

/-- Claim C5 (counterexample): for a parenthesized `type` group whose struct
spec carries a spec-level doc comment (position 20) while the declaration
itself (position 10) has no doc comment, the earliest candidate is the
declaration's start — line 10 under `posIdxId` — yet the emitted chunk starts
at line 20, with content beginning at offset 20 rather than 10. -/
theorem structChunk_start_not_earliest_cex :
    (extractChunks fileEx srcEx posIdxId).map Chunk.Start = [20] ∧
    typeDeclEx.doc = none ∧ typeDeclEx.pos = 10 ∧ CommentGroup.pos structSpecDocEx = 20 ∧
    (posIdxId (min typeDeclEx.pos (CommentGroup.pos structSpecDocEx))).line = 10 ∧
    (extractChunks fileEx srcEx posIdxId).map Chunk.Content = [srcSlice srcEx 20 50] ∧
    srcSlice srcEx 20 50 ≠ srcSlice srcEx 10 50 := by
  decide

/-- Claim C5 (amended): the struct chunk's span start is chosen by priority,
not by minimum: the declaration-level doc comment start if present, else the
spec-level doc comment start if present, else the declaration's own start
(`structStartSel`).  For every struct type spec of a `type` declaration, the
emitted chunk starts (line and content offset) at exactly that position and
ends at the declaration's end. -/
theorem structChunk_start_priority (src : Str) (posIdx : Nat → Position) (d : GenDecl)
    (name : Str) (doc : Option CommentGroup) (hd : d.tok = .typeTok)
    (h : Spec.typeSpec name doc .structType ∈ d.specs) :
    { Content := srcSlice src (posIdx (structStartSel d doc)).offset (posIdx d.endP).offset,
      typ := .struct, Name := name, Path := [], Receiver := [], Size := 0, Lang := LangGo,
      Start := (posIdx (structStartSel d doc)).line,
      End := (posIdx d.endP).line } ∈ extractChunks ⟨[.genD d]⟩ src posIdx := by
  have hred : extractChunks ⟨[.genD d]⟩ src posIdx = typeDeclChunks src posIdx d := by
    simp [extractChunks, declChunks, hd]
  rw [hred]
  unfold typeDeclChunks
  refine List.mem_flatMap.mpr ⟨Spec.typeSpec name doc .structType, h, ?_⟩
  rcases hdd : d.doc with _ | g
  · rcases hsd : doc with _ | g2
    · simp [structStartSel, hdd, hsd]
    · simp [structStartSel, hdd, hsd]
  · simp [structStartSel, hdd]

/-- Claim C5 (witness): the amended theorem at `typeDeclEx` inside `fileEx`. -/
theorem structChunk_start_priority_witness :
    { Content := srcSlice srcEx
        (posIdxId (structStartSel typeDeclEx (some structSpecDocEx))).offset
        (posIdxId typeDeclEx.endP).offset,
      typ := .struct, Name := ['A'], Path := [], Receiver := [], Size := 0, Lang := LangGo,
      Start := (posIdxId (structStartSel typeDeclEx (some structSpecDocEx))).line,
      End := (posIdxId typeDeclEx.endP).line } ∈ extractChunks fileEx srcEx posIdxId :=
  structChunk_start_priority srcEx posIdxId typeDeclEx ['A'] (some structSpecDocEx)
    (by decide) (by decide)

/-- Claim C6: a function declaration with a non-empty receiver list always
yields exactly one method chunk (no receiver shape fails or is skipped), whose
receiver label is computed by `receiverTypeOf`: the bare name for a named-type
receiver, `*` + name for a pointer-to-named-type receiver, and the empty string
for every other receiver expression shape. -/
theorem method_receiver_reported (src : Str) (posIdx : Nat → Position) (d : FuncDecl)
    (l : List RecvExpr) (hr : d.recv = some l) (hl : 0 < l.length) :
    ((extractChunks ⟨[.funcD d]⟩ src posIdx).map (fun c => (c.typ, c.Name, c.Receiver)) =
      [(ChunkType.method, d.name, receiverTypeOf (l.headD .other))]) ∧
    (∀ n : Str, receiverTypeOf (.ident n) = n) ∧
    (∀ n : Str, receiverTypeOf (.star (.ident n)) = '*' :: n) ∧
    (∀ e : RecvExpr, (∀ n : Str, e ≠ .ident n ∧ e ≠ .star (.ident n)) →
      receiverTypeOf e = []) := by
  refine ⟨?_, fun n => rfl, fun n => rfl, ?_⟩
  · rcases hdd : d.doc with _ | g <;>
      simp [extractChunks, declChunks, funcDeclChunks, hr, hdd, hl]
  · intro e he
    cases e with
    | ident n => exact absurd rfl (he n).1
    | star x =>
      cases x with
      | ident n => exact absurd rfl (he n).2
      | star y => rfl
      | other => rfl
    | other => rfl

/-- Claim C6 (witness): the theorem at `methodDeclEx` (receiver `*U`). -/
theorem method_receiver_reported_witness :
    (extractChunks ⟨[.funcD methodDeclEx]⟩ srcEx posIdxId).map
      (fun c => (c.typ, c.Name, c.Receiver)) = [(ChunkType.method, ['M'], ['*', 'U'])] :=
  (method_receiver_reported srcEx posIdxId methodDeclEx [.star (.ident ['U'])]
    (by decide) (by decide)).1

/-- Claim C7: under the parser's guarantees (each node ends after it begins,
doc comments attached to a declaration or its specs lie before the
declaration's end) and a line-monotone position index, every chunk produced by
`extractChunks` has `Start ≤ End`. -/
theorem chunk_start_le_end (file : File) (src : Str) (posIdx : Nat → Position)
    (hmono : lineMono posIdx) (hwf : ∀ d ∈ file.decls, declWF d) :
    ∀ c ∈ extractChunks file src posIdx, c.Start ≤ c.End := by
  intro c hc
  unfold extractChunks at hc
  rw [List.mem_flatMap] at hc
  obtain ⟨d, hd, hcd⟩ := hc
  have wf := hwf d hd
  cases d with
  | funcD f =>
    unfold declWF at wf
    unfold declChunks funcDeclChunks at hcd
    rcases hdd : f.doc with _ | g <;> simp only [hdd] at hcd <;>
      rcases hrr : f.recv with _ | l <;> simp only [hrr] at hcd
    · rw [List.mem_singleton.mp hcd]
      exact hmono f.pos f.endP wf
    · by_cases hll : l.length > 0 <;> simp only [if_pos, if_neg, hll, if_true, if_false] at hcd <;>
        rw [List.mem_singleton.mp hcd] <;> exact hmono f.pos f.endP wf
    · rw [List.mem_singleton.mp hcd]
      apply hmono
      omega
    · by_cases hll : l.length > 0 <;> simp only [if_pos, if_neg, hll, if_true, if_false] at hcd <;>
        rw [List.mem_singleton.mp hcd] <;> (apply hmono; omega)
  | genD g =>
    unfold declWF at wf
    obtain ⟨wf1, wf2, wf3⟩ := wf
    unfold declChunks at hcd
    cases htok : g.tok with
    | typeTok =>
      simp only [htok] at hcd
      unfold typeDeclChunks at hcd
      rw [List.mem_flatMap] at hcd
      obtain ⟨spec, hspec, hcs⟩ := hcd
      cases spec with
      | typeSpec name doc2 typ =>
        cases typ with
        | structType =>
          rcases hdd : g.doc with _ | gg
          · rcases hsd : doc2 with _ | g2
            · simp only [hdd, hsd] at hcs
              rw [List.mem_singleton.mp hcs]
              exact hmono g.pos g.endP wf1
            · simp only [hdd, hsd] at hcs
              rw [List.mem_singleton.mp hcs]
              rw [hsd] at hspec
              exact hmono _ _ (wf3 name g2 .structType hspec)
          · simp only [hdd] at hcs
            rw [List.mem_singleton.mp hcs]
            exact hmono _ _ (wf2 gg hdd)
        | otherType => simp at hcs
      | valueSpec names comment => simp at hcs
      | importSpec => simp at hcs
    | varTok =>
      simp only [htok] at hcd
      unfold valueDeclChunks at hcd
      rw [List.mem_singleton.mp hcd]
      apply hmono
      repeat' split
      all_goals omega
    | constTok =>
      simp only [htok] at hcd
      unfold valueDeclChunks at hcd
      rw [List.mem_singleton.mp hcd]
      apply hmono
      repeat' split
      all_goals omega
    | importTok => simp [htok] at hcd
  | otherD => simp [declChunks] at hcd

/-- Claim C7 (witness): the theorem at `fileC7Ex` with the identity position
index; the method chunk there. -/
theorem chunk_start_le_end_witness :
    ((extractChunks fileC7Ex srcEx posIdxId).headD chunkEx).Start ≤
      ((extractChunks fileC7Ex srcEx posIdxId).headD chunkEx).End :=
  chunk_start_le_end fileC7Ex srcEx posIdxId (fun p q h => h)
    (by
      intro d hd
      simp only [fileC7Ex, List.mem_cons, List.mem_singleton] at hd
      rcases hd with rfl | rfl | h
      · show methodDeclEx.pos ≤ methodDeclEx.endP
        decide
      · refine ⟨by decide, ?_, ?_⟩
        · intro g hg
          simp [varDeclEx] at hg
        · intro n g t hmem
          simp [varDeclEx] at hmem
      · exact absurd h (by simp))
    _ (by decide)

/-- Claim C10: every `var` or `const` chunk produced by `extractChunks` has an
empty name and an empty receiver, whatever the declaration's shape. -/
theorem value_chunk_no_name_receiver (file : File) (src : Str) (posIdx : Nat → Position) :
    ∀ c ∈ extractChunks file src posIdx,
      c.typ = ChunkType.var ∨ c.typ = ChunkType.const → c.Name = [] ∧ c.Receiver = [] := by
  intro c hc htyp
  unfold extractChunks at hc
  rw [List.mem_flatMap] at hc
  obtain ⟨d, hd, hcd⟩ := hc
  cases d with
  | funcD f =>
    unfold declChunks funcDeclChunks at hcd
    rcases hdd : f.doc with _ | g <;> simp only [hdd] at hcd <;>
      rcases hrr : f.recv with _ | l <;> simp only [hrr] at hcd
    · rw [List.mem_singleton.mp hcd] at htyp
      simp at htyp
    · by_cases hll : l.length > 0 <;> simp only [hll, if_true, if_false] at hcd <;>
        rw [List.mem_singleton.mp hcd] at htyp <;> simp at htyp
    · rw [List.mem_singleton.mp hcd] at htyp
      simp at htyp
    · by_cases hll : l.length > 0 <;> simp only [hll, if_true, if_false] at hcd <;>
        rw [List.mem_singleton.mp hcd] at htyp <;> simp at htyp
  | genD g =>
    unfold declChunks at hcd
    cases htok : g.tok with
    | typeTok =>
      simp only [htok] at hcd
      unfold typeDeclChunks at hcd
      rw [List.mem_flatMap] at hcd
      obtain ⟨spec, hspec, hcs⟩ := hcd
      cases spec with
      | typeSpec name doc2 typ =>
        cases typ with
        | structType =>
          rcases hdd : g.doc with _ | gg <;> rcases hsd : doc2 with _ | g2 <;>
            simp only [hdd, hsd] at hcs <;> rw [List.mem_singleton.mp hcs] at htyp <;>
            simp at htyp
        | otherType => simp at hcs
      | valueSpec names comment => simp at hcs
      | importSpec => simp at hcs
    | varTok =>
      simp only [htok] at hcd
      unfold valueDeclChunks at hcd
      rw [List.mem_singleton.mp hcd]
      exact ⟨rfl, rfl⟩
    | constTok =>
      simp only [htok] at hcd
      unfold valueDeclChunks at hcd
      rw [List.mem_singleton.mp hcd]
      exact ⟨rfl, rfl⟩
    | importTok => simp [htok] at hcd
  | otherD => simp [declChunks] at hcd

/-- Claim C10 (witness): the theorem at `fileVarEx` — a single spec declaring
exactly one identifier, not parenthesized — whose chunk has no name and no
receiver. -/
theorem value_chunk_no_name_receiver_witness :
    ((extractChunks fileVarEx srcEx posIdxId).headD chunkEx).Name = [] ∧
    ((extractChunks fileVarEx srcEx posIdxId).headD chunkEx).Receiver = [] :=
  value_chunk_no_name_receiver fileVarEx srcEx posIdxId _ (by decide) (by decide)

end GoSplit
